import Mathlib

/-!
Shallow embedding of `charts-clean` (`src/main.rs`), a directory-deduplication
utility: it walks a directory tree, parses each file's name into a group key
and an embedded date, keeps the latest-dated file per group and deletes the
rest.  Strings are modelled as `List Char` (`Str`), mirroring Rust's
character-wise `split`; the walk is modelled as the sequence of file paths the
recursive walker visits; `BTreeSet` is modelled as a list (sorted for the
path set, whose iteration order matters for the deletion phase).
-/

/-- Paths and string slices, modelled as lists of characters. -/
abbrev Str := List Char

/-- Model of Rust's `str::split(c)`: splits on every occurrence of `sep`,
yielding (possibly empty) fields; the result is never empty. -/
def splitChar (sep : Char) : Str → List Str
  | [] => [[]]
  | c :: cs =>
    if c = sep then [] :: splitChar sep cs
    else
      match splitChar sep cs with
      | [] => [[c]]
      | t :: ts => (c :: t) :: ts

/-- Model of Rust's `[&str]::join(sep)` for a one-character separator. -/
def joinChar (sep : Char) : List Str → Str
  | [] => []
  | [t] => t
  | t :: ts => t ++ sep :: joinChar sep ts

/-- Strict lexicographic order on paths, as Rust's `Ord` on `PathBuf`
(byte-wise comparison of the underlying string). -/
def pathLt : Str → Str → Bool
  | [], [] => false
  | [], _ :: _ => true
  | _ :: _, [] => false
  | a :: as_, b :: bs =>
    if a < b then true
    else if b < a then false
    else pathLt as_ bs

/-- Model of `BTreeSet<PathBuf>::insert`: ordered insertion that keeps the
list strictly sorted and ignores an element already present. -/
def insertPath (x : Str) : List Str → List Str
  | [] => [x]
  | y :: ys =>
    if pathLt x y then x :: y :: ys
    else if x = y then y :: ys
    else y :: insertPath x ys

/-- Calendar date, as `irox_time::gregorian::Date` (year, month, day). -/
structure Date where
  year : Nat
  month : Nat
  day : Nat
deriving DecidableEq, Repr

/-- Strict order on dates, as the `Ord` instance of `irox_time`'s `Date`:
lexicographic on (year, month, day). -/
def Date.lt (a b : Date) : Prop :=
  a.year < b.year ∨
    (a.year = b.year ∧ (a.month < b.month ∨ (a.month = b.month ∧ a.day < b.day)))

instance (a b : Date) : Decidable (Date.lt a b) := by
  unfold Date.lt; exact inferInstance

/-- `a` is no later than `b`. -/
def Date.le (a b : Date) : Prop := a = b ∨ Date.lt a b

/-- Gregorian leap-year rule. -/
def isLeapYear (y : Nat) : Bool :=
  (y % 4 = 0 && y % 100 ≠ 0) || y % 400 = 0

/-- Length of a month in the Gregorian calendar. -/
def daysInMonth (y m : Nat) : Nat :=
  match m with
  | 1 => 31 | 2 => if isLeapYear y then 29 else 28
  | 3 => 31 | 4 => 30 | 5 => 31 | 6 => 30 | 7 => 31
  | 8 => 31 | 9 => 30 | 10 => 31 | 11 => 30 | 12 => 31
  | _ => 0

/-- Numeric value of a string of decimal digits. -/
def digitsVal (s : Str) : Nat :=
  s.foldl (fun n c => n * 10 + (c.toNat - 48)) 0

/-- Modelled from the spec: the external `irox_time` crate's
`BASIC_CALENDAR_DATE.try_from` parser (not part of this repository) — the
basic ISO-8601 calendar date format `YYYYMMDD`: exactly eight decimal digits
forming a valid Gregorian date; anything else is a format error (`none`). -/
def parseBasicDate (s : Str) : Option Date :=
  if s.length = 8 ∧ ∀ c ∈ s, c.isDigit then
    let y := digitsVal (s.take 4)
    let m := digitsVal ((s.drop 4).take 2)
    let d := digitsVal (s.drop 6)
    if 1 ≤ m ∧ m ≤ 12 ∧ 1 ≤ d ∧ d ≤ daysInMonth y m then
      some ⟨y, m, d⟩
    else none
  else none

/-- `struct FoundFile`: `path` is the derived group key, `full_path` the
on-disk path.  Equality/ordering in the source compare `path` only. -/
structure FoundFile where
  path : Str
  date : Date
  full_path : Str
deriving DecidableEq, Repr

/-- The two accumulator sets threaded through the walk: `to_keep`
(`BTreeSet<FoundFile>`, keyed by group key) and `to_remove`
(`BTreeSet<PathBuf>`, kept sorted). -/
structure State where
  keep : List FoundFile
  remove : List Str
deriving DecidableEq, Repr

/-- The key-equality predicate under which `to_keep.contains` / `take`
operate (the source's `PartialEq for FoundFile` compares `path` only). -/
def keyPred (f : FoundFile) : FoundFile → Bool :=
  fun e => decide (e.path = f.path)

/-- One Deduplicator step (`main.rs` lines 110–124): if a same-key entry is
present, `take` it out, keep the later-dated of the two and put the loser's
path into `to_remove`; otherwise insert the new file. -/
def dedupStep (s : State) (f : FoundFile) : State :=
  match s.keep.find? (keyPred f) with
  | some old =>
    let rest := s.keep.eraseP (keyPred f)
    if Date.lt old.date f.date then
      { keep := f :: rest, remove := insertPath old.full_path s.remove }
    else
      { keep := old :: rest, remove := insertPath f.full_path s.remove }
  | none => { keep := f :: s.keep, remove := s.remove }

/-- `path_str.split('/').next_back()`: the final path segment. -/
def lastSegment (p : Str) : Option Str := (splitChar '/' p).getLast?

/-- The date-position token: third-from-last underscore-delimited token of
the full path string (`paths.next_back()` called three times). -/
def dateToken (p : Str) : Option Str :=
  ((splitChar '_' p).dropLast.dropLast).getLast?

/-- Outcome of processing one file path (`main.rs` lines 92–102). -/
inductive ParseResult where
  | panicked
  | skipped
  | fatal
  | ok (key : Str) (date : Date)
deriving DecidableEq, Repr

/-- Filename parsing, transcribed from `main.rs` lines 92–102:
`panicked` models the `usize` underflow in `split_at(base_path.len()-3)`
(and the `.unwrap()` on the final segment); `skipped` the
`error!(...); return Ok(())` branch when no date token exists; `fatal` the
`?`-propagated `FormatError`. -/
def parseFile (pathStr : Str) : ParseResult :=
  match lastSegment pathStr with
  | none => .panicked
  | some fileName =>
    let baseToks := splitChar '_' fileName
    if baseToks.length < 3 then .panicked
    else
      let baseKey := joinChar '_' ((baseToks.splitAt (baseToks.length - 3)).1)
      match dateToken pathStr with
      | none => .skipped
      | some tok =>
        match parseBasicDate tok with
        | none => .fatal
        | some date => .ok baseKey date

/-- The two fatal outcomes a run can end with: a panic, or a propagated
`Error::FormatError`. -/
inductive Fail where
  | panic
  | fmt
deriving DecidableEq, Repr

/-- The walk over the sequence of visited (non-directory) paths:
`scan_dir_and_recurse` applied file by file, aborting on a fatal parse and
feeding successful parses to the Deduplicator. -/
def scanFiles (s : State) : List Str → Except Fail State
  | [] => .ok s
  | p :: ps =>
    match parseFile p with
    | .panicked => .error .panic
    | .skipped => scanFiles s ps
    | .fatal => .error .fmt
    | .ok key date => scanFiles (dedupStep s ⟨key, date, p⟩) ps

/-- The deletion phase (`main.rs` lines 142–145): delete the paths in order,
stopping at the first failure; returns the paths actually deleted and
whether the loop completed.  `del` models `std::fs::remove_file` success. -/
def runDeletions (del : Str → Bool) : List Str → List Str × Bool
  | [] => ([], true)
  | p :: ps =>
    if del p then
      let r := runDeletions del ps
      (p :: r.1, r.2)
    else ([], false)

/-- The whole driver (`main`): scan from empty sets, then — only if the walk
succeeded — run the deletion phase over `to_remove` in its (sorted)
iteration order. -/
def runMain (del : Str → Bool) (files : List Str) :
    Except Fail (State × List Str × Bool) :=
  match scanFiles ⟨[], []⟩ files with
  | .error e => .error e
  | .ok s => .ok (s, runDeletions del s.remove)

/-- Whether a path parses successfully (ends up as a Deduplicator candidate). -/
def parsedOk (p : Str) : Bool :=
  match parseFile p with
  | .ok _ _ => true
  | _ => false

/-- Invariant tying the state of the two sets to the paths visited so far:
keep-paths and remove-paths partition the successfully parsed visited files,
and no on-disk path occurs twice inside the keep set. -/
def GoodInv (visited : List Str) (s : State) : Prop :=
  (∀ p : Str, ((∃ e ∈ s.keep, e.full_path = p) ∨ p ∈ s.remove) ↔
      (p ∈ visited ∧ parsedOk p = true)) ∧
  (s.keep.map (fun e => e.full_path)).Nodup ∧
  ∀ p : Str, (∃ e ∈ s.keep, e.full_path = p) → p ∉ s.remove

example : splitChar '_' "a_b".toList = [['a'], ['b']] := by decide
example : splitChar '_' "".toList = [[]] := by decide
example : splitChar '_' "_".toList = [[], []] := by decide
example : parseFile "A_20230101_1_T".toList =
    .ok ['A'] ⟨2023, 1, 1⟩ := by decide
example : parseFile "foo_bar".toList = .panicked := by decide
example : parseFile "d/foo".toList = .panicked := by decide
example : parseFile "A_2023-9-9_1_T".toList = .fatal := by decide
example : parseFile "a_b/c_d".toList = .panicked := by decide
example : dateToken "a_b/c_d".toList = some ['a'] := by decide

/-! ### Order lemmas for paths and dates -/

theorem pathLt_trans : ∀ {a b c : Str},
    pathLt a b = true → pathLt b c = true → pathLt a c = true := by
  intro a
  induction a with
  | nil =>
    intro b c hab hbc
    cases b <;> cases c <;> simp_all [pathLt]
  | cons x xs ih =>
    intro b c hab hbc
    cases b with
    | nil => simp [pathLt] at hab
    | cons y ys =>
      cases c with
      | nil => simp [pathLt] at hbc
      | cons z zs =>
        simp only [pathLt] at hab hbc ⊢
        by_cases h1 : x < y
        · by_cases h3 : y < z
          · simp [lt_trans h1 h3]
          · by_cases h4 : z < y
            · simp [h3, h4] at hbc
            · have hyz : y = z := le_antisymm (not_lt.mp h4) (not_lt.mp h3)
              subst hyz
              simp [h1]
        · by_cases h2 : y < x
          · simp [h1, h2] at hab
          · have hxy : x = y := le_antisymm (not_lt.mp h2) (not_lt.mp h1)
            subst hxy
            rw [if_neg (lt_irrefl x), if_neg (lt_irrefl x)] at hab
            by_cases h3 : x < z
            · simp [h3]
            · by_cases h4 : z < x
              · simp [h3, h4] at hbc
              · have hxz : x = z := le_antisymm (not_lt.mp h4) (not_lt.mp h3)
                subst hxz
                rw [if_neg (lt_irrefl x), if_neg (lt_irrefl x)] at hbc ⊢
                exact ih hab hbc

theorem pathLt_connex : ∀ {a b : Str},
    pathLt a b = false → a ≠ b → pathLt b a = true := by
  intro a
  induction a with
  | nil =>
    intro b hab hne
    cases b with
    | nil => exact absurd rfl hne
    | cons y ys => simp [pathLt] at hab
  | cons x xs ih =>
    intro b hab hne
    cases b with
    | nil => simp [pathLt]
    | cons y ys =>
      simp only [pathLt] at hab ⊢
      by_cases h1 : x < y
      · simp [h1] at hab
      · by_cases h2 : y < x
        · simp [h2]
        · have hxy : x = y := le_antisymm (not_lt.mp h2) (not_lt.mp h1)
          subst hxy
          rw [if_neg (lt_irrefl x), if_neg (lt_irrefl x)] at hab ⊢
          exact ih hab (fun h => hne (by rw [h]))

theorem date_lt_irrefl (a : Date) : ¬ Date.lt a a := by
  unfold Date.lt; omega

theorem date_lt_asymm {a b : Date} (h : Date.lt a b) : ¬ Date.lt b a := by
  unfold Date.lt at *; omega

theorem date_lt_trans {a b c : Date} (h1 : Date.lt a b) (h2 : Date.lt b c) :
    Date.lt a c := by
  unfold Date.lt at *; omega

theorem date_le_of_not_lt {a b : Date} (h : ¬ Date.lt a b) : Date.le b a := by
  rcases a with ⟨y1, m1, d1⟩
  rcases b with ⟨y2, m2, d2⟩
  simp only [Date.lt, Date.le, Date.mk.injEq] at *
  omega

theorem date_le_refl (a : Date) : Date.le a a := Or.inl rfl

theorem date_le_trans_lt {a b c : Date} (h1 : Date.le a b) (h2 : Date.lt b c) :
    Date.le a c := by
  rcases h1 with rfl | h1
  · exact Or.inr h2
  · exact Or.inr (date_lt_trans h1 h2)

/-! ### Membership and sortedness of the remove set -/

theorem mem_insertPath {p x : Str} : ∀ {l : List Str},
    p ∈ insertPath x l ↔ p = x ∨ p ∈ l := by
  intro l
  induction l with
  | nil => simp [insertPath]
  | cons y ys ih =>
    simp only [insertPath]
    split_ifs with h1 h2
    · simp [or_comm, or_assoc]
    · subst h2
      constructor
      · intro h; exact Or.inr h
      · rintro (rfl | h)
        · simp
        · exact h
    · simp only [List.mem_cons, ih]
      tauto

theorem sorted_insertPath {x : Str} : ∀ {l : List Str},
    l.Pairwise (fun a b => pathLt a b = true) →
    (insertPath x l).Pairwise (fun a b => pathLt a b = true) := by
  intro l
  induction l with
  | nil => intro _; simp [insertPath]
  | cons y ys ih =>
    intro hp
    rcases List.pairwise_cons.mp hp with ⟨hy, hys⟩
    simp only [insertPath]
    split_ifs with h1 h2
    · refine List.pairwise_cons.mpr ⟨?_, hp⟩
      intro b hb
      rcases List.mem_cons.mp hb with rfl | hb
      · exact h1
      · exact pathLt_trans h1 (hy b hb)
    · exact hp
    · refine List.pairwise_cons.mpr ⟨?_, ih hys⟩
      intro b hb
      rcases mem_insertPath.mp hb with rfl | hb
      · exact pathLt_connex (by simpa using h1) h2
      · exact hy b hb

/-! ### Case analysis of one Deduplicator step -/

theorem find?_first {α : Type} {p : α → Bool} :
    ∀ (l1 : List α) (a : α) (l2 : List α),
    (∀ b ∈ l1, ¬p b = true) → p a = true →
    List.find? p (l1 ++ a :: l2) = some a := by
  intro l1
  induction l1 with
  | nil =>
    intro a l2 _ ha
    simp [List.find?_cons, ha]
  | cons b bs ih =>
    intro a l2 hb ha
    have hbf : p b = false := by
      have := hb b (by simp)
      simpa using this
    simp only [List.cons_append, List.find?_cons, hbf]
    exact ih a l2 (fun x hx => hb x (by simp [hx])) ha

theorem dedup_cases (s : State) (f : FoundFile) :
    (s.keep.find? (keyPred f) = none ∧ dedupStep s f = ⟨f :: s.keep, s.remove⟩) ∨
    (∃ old l1 l2,
      s.keep.find? (keyPred f) = some old ∧
      s.keep = l1 ++ old :: l2 ∧
      old.path = f.path ∧
      (∀ b ∈ l1, b.path ≠ f.path) ∧
      ((Date.lt old.date f.date ∧
         dedupStep s f = ⟨f :: (l1 ++ l2), insertPath old.full_path s.remove⟩) ∨
       (¬Date.lt old.date f.date ∧
         dedupStep s f = ⟨old :: (l1 ++ l2), insertPath f.full_path s.remove⟩))) := by
  cases hf : s.keep.find? (keyPred f) with
  | none =>
    left
    exact ⟨rfl, by simp [dedupStep, hf]⟩
  | some old =>
    right
    have hmem := List.mem_of_find?_eq_some hf
    have hpa := List.find?_some hf
    obtain ⟨a, l1, l2, hnl1, hpa2, hdecomp, herase⟩ :=
      List.exists_of_eraseP hmem hpa
    have hfind2 : List.find? (keyPred f) (l1 ++ a :: l2) = some a :=
      find?_first l1 a l2 hnl1 hpa2
    have haold : a = old := by
      rw [hdecomp, hfind2] at hf
      injection hf
    subst haold
    refine ⟨a, l1, l2, rfl, hdecomp, ?_, ?_, ?_⟩
    · exact of_decide_eq_true hpa
    · intro b hb
      have := hnl1 b hb
      simpa [keyPred] using this
    · by_cases hd : Date.lt a.date f.date
      · left
        refine ⟨hd, ?_⟩
        simp only [dedupStep, hf, if_pos hd]
        rw [herase]
      · right
        refine ⟨hd, ?_⟩
        simp only [dedupStep, hf, if_neg hd]
        rw [herase]

/-! ### C10, C4, C5 (counterexample): the parser's entry behaviour -/

theorem splitChar_ne_nil (sep : Char) : ∀ s : Str, splitChar sep s ≠ [] := by
  intro s
  cases s with
  | nil => simp [splitChar]
  | cons c cs =>
    simp only [splitChar]
    split_ifs
    · simp
    · cases h : splitChar sep cs <;> simp

/-- C10: the `.unwrap()` on `path_str.split('/').next_back()` never panics:
splitting any string on `'/'` yields at least one field, so the final path
segment always exists. -/
theorem lastSegment_total (s : Str) : (lastSegment s).isSome = true := by
  unfold lastSegment
  rw [List.getLast?_isSome]
  exact splitChar_ne_nil '/' s

/-- C4 (divergence witness): for a filename with only two
underscore-delimited fields, processing does not log-and-continue as the
spec demands: `split_at(base_path.len()-3)` underflows and the walk dies
with a panic instead of returning `Ok(())`. -/
theorem malformed_name_panics :
    parseFile "d/a_b".toList = ParseResult.panicked ∧
    scanFiles ⟨[], []⟩ ["d/a_b".toList] = Except.error Fail.panic := by
  exact ⟨by decide, rfl⟩

/-- C5 (counterexample): a path whose date-position token (third-from-last
underscore field of the full path) exists and fails to parse, but whose
final segment has fewer than three underscore fields, makes the run panic
rather than return the claimed Format error. -/
theorem bad_date_not_always_fatal :
    dateToken "a_b/c_d".toList = some ['a'] ∧
    parseBasicDate ['a'] = none ∧
    parseFile "a_b/c_d".toList = ParseResult.panicked ∧
    parseFile "a_b/c_d".toList ≠ ParseResult.fatal ∧
    scanFiles ⟨[], []⟩ ["a_b/c_d".toList] = Except.error Fail.panic := by
  exact ⟨by decide, by decide, by decide, by decide, rfl⟩

/-! ### C1, C7: order-independence and tie stability of the Deduplicator -/

/-- C1: two candidates with the same group key and the earlier one strictly
older, arriving at a state with no entry for that key: in either arrival
order the later-dated candidate ends in the keep set and the earlier one's
path in the remove set — the winner is arrival-order independent. -/
theorem dedup_order_independence (s : State) (f g : FoundFile)
    (hk : f.path = g.path) (hd : Date.lt f.date g.date)
    (habs : s.keep.find? (keyPred f) = none) :
    (g ∈ (dedupStep (dedupStep s f) g).keep ∧
      f.full_path ∈ (dedupStep (dedupStep s f) g).remove) ∧
    (g ∈ (dedupStep (dedupStep s g) f).keep ∧
      f.full_path ∈ (dedupStep (dedupStep s g) f).remove) := by
  have hkg : keyPred g = keyPred f := by
    funext e; simp [keyPred, hk]
  have h1 : dedupStep s f = ⟨f :: s.keep, s.remove⟩ := by
    simp [dedupStep, habs]
  have hfg : keyPred g f = true := by simp [keyPred, hk]
  have hgf : keyPred f g = true := by simp [keyPred, hk]
  have h2 : dedupStep ⟨f :: s.keep, s.remove⟩ g =
      ⟨g :: s.keep, insertPath f.full_path s.remove⟩ := by
    simp only [dedupStep, List.find?_cons_of_pos _ hfg,
      List.eraseP_cons_of_pos hfg, if_pos hd]
  have h3 : dedupStep s g = ⟨g :: s.keep, s.remove⟩ := by
    simp [dedupStep, hkg, habs]
  have h4 : dedupStep ⟨g :: s.keep, s.remove⟩ f =
      ⟨g :: s.keep, insertPath f.full_path s.remove⟩ := by
    simp only [dedupStep, List.find?_cons_of_pos _ hgf,
      List.eraseP_cons_of_pos hgf, if_neg (date_lt_asymm hd)]
  rw [h1, h2, h3, h4]
  exact ⟨⟨List.mem_cons_self g s.keep, mem_insertPath.mpr (Or.inl rfl)⟩,
    ⟨List.mem_cons_self g s.keep, mem_insertPath.mpr (Or.inl rfl)⟩⟩

/-- C7: two candidates with identical group key and identical date, arriving
at a state with no entry for that key: the first-processed one stays in the
keep set and the second one's path is added to the remove set. -/
theorem dedup_tie_first_wins (s : State) (f g : FoundFile)
    (hk : g.path = f.path) (hd : g.date = f.date)
    (habs : s.keep.find? (keyPred f) = none) :
    f ∈ (dedupStep (dedupStep s f) g).keep ∧
    g.full_path ∈ (dedupStep (dedupStep s f) g).remove := by
  have h1 : dedupStep s f = ⟨f :: s.keep, s.remove⟩ := by
    simp [dedupStep, habs]
  have hfg : keyPred g f = true := by simp [keyPred, hk]
  have hnd : ¬Date.lt f.date g.date := by
    rw [hd]; exact date_lt_irrefl f.date
  have h2 : dedupStep ⟨f :: s.keep, s.remove⟩ g =
      ⟨f :: s.keep, insertPath g.full_path s.remove⟩ := by
    simp only [dedupStep, List.find?_cons_of_pos _ hfg,
      List.eraseP_cons_of_pos hfg, if_neg hnd]
  rw [h1, h2]
  exact ⟨List.mem_cons_self f s.keep, mem_insertPath.mpr (Or.inl rfl)⟩

/-! ### C9: the frame effect of a single step -/

/-- C9: one Deduplicator step on a parsed candidate: when a same-key entry
exists the keep set's size is unchanged and exactly the losing file's path
is added to the remove set; when none exists the remove set is untouched
and the keep set grows by exactly one entry. -/
theorem dedup_step_frame (s : State) (f : FoundFile) :
    (∀ old, s.keep.find? (keyPred f) = some old →
      (dedupStep s f).keep.length = s.keep.length ∧
      (dedupStep s f).remove =
        insertPath
          (if Date.lt old.date f.date then old.full_path else f.full_path)
          s.remove) ∧
    (s.keep.find? (keyPred f) = none →
      (dedupStep s f).keep.length = s.keep.length + 1 ∧
      (dedupStep s f).remove = s.remove) := by
  rcases dedup_cases s f with ⟨hn, he⟩ |
    ⟨old, l1, l2, hfind, hdec, hkey, hl1, hbr⟩
  · constructor
    · intro o ho
      rw [hn] at ho
      cases ho
    · intro _
      rw [he]
      exact ⟨by simp, rfl⟩
  · constructor
    · intro o ho
      have hoo : old = o := by
        rw [hfind] at ho
        exact Option.some.inj ho
      subst hoo
      rcases hbr with ⟨hdd, he⟩ | ⟨hdd, he⟩
      · rw [he, if_pos hdd]
        refine ⟨?_, rfl⟩
        rw [hdec]
        simp [List.length_append]
        omega
      · rw [he, if_neg hdd]
        refine ⟨?_, rfl⟩
        rw [hdec]
        simp [List.length_append]
        omega
    · intro hn
      rw [hfind] at hn
      cases hn

/-! ### C2: the keep set dominates every processed candidate -/

theorem dedup_keeps_key (s : State) (f : FoundFile) (k : Str) (d : Date)
    (h : ∃ e ∈ s.keep, e.path = k ∧ Date.le d e.date) :
    ∃ e ∈ (dedupStep s f).keep, e.path = k ∧ Date.le d e.date := by
  obtain ⟨e, he, hek, hed⟩ := h
  rcases dedup_cases s f with ⟨hn, heq⟩ |
    ⟨old, l1, l2, hfind, hdec, hkey, hl1, hbr⟩
  · rw [heq]
    exact ⟨e, List.mem_cons_of_mem _ he, hek, hed⟩
  · rw [hdec] at he
    rcases List.mem_append.mp he with h1 | h2
    · rcases hbr with ⟨hdd, heq⟩ | ⟨hdd, heq⟩ <;> rw [heq] <;>
        exact ⟨e, by simp [List.mem_append, h1], hek, hed⟩
    · rcases List.mem_cons.mp h2 with rfl | h3
      · rcases hbr with ⟨hdd, heq⟩ | ⟨hdd, heq⟩
        · rw [heq]
          refine ⟨f, by simp, ?_, ?_⟩
          · rw [← hkey]; exact hek
          · exact date_le_trans_lt hed hdd
        · rw [heq]
          exact ⟨e, by simp, hek, hed⟩
      · rcases hbr with ⟨hdd, heq⟩ | ⟨hdd, heq⟩ <;> rw [heq] <;>
          exact ⟨e, by simp [List.mem_append, h3], hek, hed⟩

theorem dedup_adds_key (s : State) (f : FoundFile) :
    ∃ e ∈ (dedupStep s f).keep, e.path = f.path ∧ Date.le f.date e.date := by
  rcases dedup_cases s f with ⟨hn, heq⟩ |
    ⟨old, l1, l2, hfind, hdec, hkey, hl1, hbr⟩
  · rw [heq]
    exact ⟨f, by simp, rfl, date_le_refl _⟩
  · rcases hbr with ⟨hdd, heq⟩ | ⟨hdd, heq⟩
    · rw [heq]
      exact ⟨f, by simp, rfl, date_le_refl _⟩
    · rw [heq]
      exact ⟨old, by simp, hkey, date_le_of_not_lt hdd⟩

theorem foldl_keeps_key : ∀ (l : List FoundFile) (s : State) (k : Str) (d : Date),
    (∃ e ∈ s.keep, e.path = k ∧ Date.le d e.date) →
    ∃ e ∈ (List.foldl dedupStep s l).keep, e.path = k ∧ Date.le d e.date := by
  intro l
  induction l with
  | nil => intro s k d h; exact h
  | cons g gs ih =>
    intro s k d h
    exact ih (dedupStep s g) k d (dedup_keeps_key s g k d h)

theorem foldl_adds_key : ∀ (l : List FoundFile) (s : State) (f : FoundFile),
    f ∈ l →
    ∃ e ∈ (List.foldl dedupStep s l).keep, e.path = f.path ∧ Date.le f.date e.date := by
  intro l
  induction l with
  | nil => intro s f h; cases h
  | cons g gs ih =>
    intro s f h
    rcases List.mem_cons.mp h with rfl | h2
    · exact foldl_keeps_key gs (dedupStep s f) f.path f.date (dedup_adds_key s f)
    · exact ih (dedupStep s g) f h2

theorem dedup_keys_nodup (s : State) (f : FoundFile)
    (h : s.keep.Pairwise (fun a b => a.path ≠ b.path)) :
    (dedupStep s f).keep.Pairwise (fun a b => a.path ≠ b.path) := by
  rcases dedup_cases s f with ⟨hn, heq⟩ |
    ⟨old, l1, l2, hfind, hdec, hkey, hl1, hbr⟩
  · rw [heq]
    refine List.pairwise_cons.mpr ⟨?_, h⟩
    intro b hb
    have hb2 := List.find?_eq_none.mp hn b hb
    simp only [keyPred, decide_eq_true_eq] at hb2
    exact fun hfp => hb2 hfp.symm
  · have hsymm : ∀ {x y : FoundFile}, x.path ≠ y.path → y.path ≠ x.path :=
      fun hxy => Ne.symm hxy
    have hp2 : (old :: (l1 ++ l2)).Pairwise (fun a b => a.path ≠ b.path) :=
      (List.perm_middle.pairwise_iff hsymm).mp (hdec ▸ h)
    rcases hbr with ⟨hdd, heq⟩ | ⟨hdd, heq⟩
    · rw [heq]
      rcases List.pairwise_cons.mp hp2 with ⟨hold, htail⟩
      refine List.pairwise_cons.mpr ⟨?_, htail⟩
      intro b hb
      rw [← hkey]
      exact hold b hb
    · rw [heq]
      exact hp2

theorem foldl_keys_nodup : ∀ (l : List FoundFile) (s : State),
    s.keep.Pairwise (fun a b => a.path ≠ b.path) →
    (List.foldl dedupStep s l).keep.Pairwise (fun a b => a.path ≠ b.path) := by
  intro l
  induction l with
  | nil => intro s h; exact h
  | cons g gs ih =>
    intro s h
    exact ih (dedupStep s g) (dedup_keys_nodup s g h)

/-- C2: after any sequence of Deduplicator steps from the empty state, the
keep set holds at most one entry per group key, and every processed
candidate whose path landed in the remove set is dominated by a same-key
keep entry with a date at least as late. -/
theorem keep_set_invariant (l : List FoundFile) :
    (List.foldl dedupStep ⟨[], []⟩ l).keep.Pairwise (fun a b => a.path ≠ b.path) ∧
    ∀ f ∈ l, f.full_path ∈ (List.foldl dedupStep ⟨[], []⟩ l).remove →
      ∃ e ∈ (List.foldl dedupStep ⟨[], []⟩ l).keep,
        e.path = f.path ∧ Date.le f.date e.date := by
  constructor
  · exact foldl_keys_nodup l ⟨[], []⟩ (by simp)
  · intro f hf _
    exact foldl_adds_key l ⟨[], []⟩ f hf

/-- Witness for C2 at a concrete two-candidate run: the first file of group
`A` is removed and the surviving entry's date dominates it. -/
theorem keep_set_invariant_witness :
    (⟨['A'], ⟨2023, 1, 1⟩, ['p', '1']⟩ : FoundFile) ∈
        ([⟨['A'], ⟨2023, 1, 1⟩, ['p', '1']⟩, ⟨['A'], ⟨2023, 2, 15⟩, ['p', '2']⟩] :
          List FoundFile) ∧
    (['p', '1'] : Str) ∈
        (List.foldl dedupStep ⟨[], []⟩
          [⟨['A'], ⟨2023, 1, 1⟩, ['p', '1']⟩,
            ⟨['A'], ⟨2023, 2, 15⟩, ['p', '2']⟩]).remove ∧
    ∃ e ∈ (List.foldl dedupStep ⟨[], []⟩
        [⟨['A'], ⟨2023, 1, 1⟩, ['p', '1']⟩,
          ⟨['A'], ⟨2023, 2, 15⟩, ['p', '2']⟩]).keep,
      e.path = (⟨['A'], ⟨2023, 1, 1⟩, ['p', '1']⟩ : FoundFile).path ∧
        Date.le (⟨['A'], ⟨2023, 1, 1⟩, ['p', '1']⟩ : FoundFile).date e.date :=
  ⟨by decide, by decide,
    (keep_set_invariant
      [⟨['A'], ⟨2023, 1, 1⟩, ['p', '1']⟩,
        ⟨['A'], ⟨2023, 2, 15⟩, ['p', '2']⟩]).2
      ⟨['A'], ⟨2023, 1, 1⟩, ['p', '1']⟩ (by decide) (by decide)⟩

/-! ### C5 (amended): a bad date token with a well-formed filename is fatal -/

theorem scanFiles_append_ok : ∀ {l1 : List Str} {s s' : State},
    scanFiles s l1 = .ok s' → ∀ l2, scanFiles s (l1 ++ l2) = scanFiles s' l2 := by
  intro l1
  induction l1 with
  | nil =>
    intro s s' h l2
    simp only [scanFiles] at h
    obtain rfl : s = s' := Except.ok.inj h
    simp
  | cons p ps ih =>
    intro s s' h l2
    cases hp : parseFile p with
    | panicked => simp [scanFiles, hp] at h
    | skipped =>
      simp only [scanFiles, hp, List.cons_append] at h ⊢
      exact ih h l2
    | fatal => simp [scanFiles, hp] at h
    | ok key d =>
      simp only [scanFiles, hp, List.cons_append] at h ⊢
      exact ih h l2

/-- C5 (amended): for a file whose final path segment has at least three
underscore-delimited fields and whose date-position token exists but fails
to parse, processing yields a Format error, and any walk reaching that file
aborts with the Format error — nothing after it is processed. -/
theorem fatal_on_bad_date (p fn t : Str)
    (hfn : lastSegment p = some fn)
    (h3 : 3 ≤ (splitChar '_' fn).length)
    (ht : dateToken p = some t)
    (hbad : parseBasicDate t = none) :
    parseFile p = ParseResult.fatal ∧
    ∀ (l1 l2 : List Str) (s0 s1 : State), scanFiles s0 l1 = .ok s1 →
      scanFiles s0 (l1 ++ p :: l2) = Except.error Fail.fmt := by
  have hpf : parseFile p = ParseResult.fatal := by
    simp only [parseFile, hfn]
    rw [if_neg (by omega : ¬(splitChar '_' fn).length < 3)]
    simp only [ht, hbad]
  refine ⟨hpf, ?_⟩
  intro l1 l2 s0 s1 h
  rw [scanFiles_append_ok h (p :: l2)]
  simp [scanFiles, hpf]

/-- Witness for C5 (amended): a four-field filename with day `99` in the
date token is rejected and aborts the walk with a Format error. -/
theorem fatal_on_bad_date_witness :
    parseFile "A_20230199_1_T".toList = ParseResult.fatal ∧
    scanFiles ⟨[], []⟩ ([] ++ "A_20230199_1_T".toList :: []) =
      Except.error Fail.fmt := by
  have h := fatal_on_bad_date "A_20230199_1_T".toList "A_20230199_1_T".toList
    "20230199".toList (by decide) (by decide) (by decide) (by decide)
  exact ⟨h.1, h.2 [] [] ⟨[], []⟩ ⟨[], []⟩ rfl⟩

/-! ### Witnesses for C1, C7, C9 -/

/-- Witness for C1 at concrete inputs: group `A`, dates 2023-01-01 and
2023-02-15, both arrival orders. -/
theorem dedup_order_independence_witness :
    ((⟨['A'], ⟨2023, 2, 15⟩, ['q']⟩ : FoundFile) ∈
        (dedupStep (dedupStep ⟨[], []⟩ ⟨['A'], ⟨2023, 1, 1⟩, ['p']⟩)
          ⟨['A'], ⟨2023, 2, 15⟩, ['q']⟩).keep ∧
      (['p'] : Str) ∈
        (dedupStep (dedupStep ⟨[], []⟩ ⟨['A'], ⟨2023, 1, 1⟩, ['p']⟩)
          ⟨['A'], ⟨2023, 2, 15⟩, ['q']⟩).remove) ∧
    ((⟨['A'], ⟨2023, 2, 15⟩, ['q']⟩ : FoundFile) ∈
        (dedupStep (dedupStep ⟨[], []⟩ ⟨['A'], ⟨2023, 2, 15⟩, ['q']⟩)
          ⟨['A'], ⟨2023, 1, 1⟩, ['p']⟩).keep ∧
      (['p'] : Str) ∈
        (dedupStep (dedupStep ⟨[], []⟩ ⟨['A'], ⟨2023, 2, 15⟩, ['q']⟩)
          ⟨['A'], ⟨2023, 1, 1⟩, ['p']⟩).remove) :=
  dedup_order_independence ⟨[], []⟩ ⟨['A'], ⟨2023, 1, 1⟩, ['p']⟩
    ⟨['A'], ⟨2023, 2, 15⟩, ['q']⟩ rfl (by decide) rfl

/-- Witness for C7 at concrete inputs: equal dates, first-processed file
stays kept, second one's path is removed. -/
theorem dedup_tie_first_wins_witness :
    (⟨['A'], ⟨2023, 1, 1⟩, ['p']⟩ : FoundFile) ∈
      (dedupStep (dedupStep ⟨[], []⟩ ⟨['A'], ⟨2023, 1, 1⟩, ['p']⟩)
        ⟨['A'], ⟨2023, 1, 1⟩, ['q']⟩).keep ∧
    (['q'] : Str) ∈
      (dedupStep (dedupStep ⟨[], []⟩ ⟨['A'], ⟨2023, 1, 1⟩, ['p']⟩)
        ⟨['A'], ⟨2023, 1, 1⟩, ['q']⟩).remove :=
  dedup_tie_first_wins ⟨[], []⟩ ⟨['A'], ⟨2023, 1, 1⟩, ['p']⟩
    ⟨['A'], ⟨2023, 1, 1⟩, ['q']⟩ rfl rfl rfl

/-- Witness for C9: one step on an occupied group leaves the keep size at
one and inserts the loser's path; one step on a fresh group only grows the
keep set. -/
theorem dedup_step_frame_witness :
    ((dedupStep ⟨[⟨['A'], ⟨2023, 1, 1⟩, ['p']⟩], []⟩
        ⟨['A'], ⟨2023, 2, 15⟩, ['q']⟩).keep.length =
      ([⟨['A'], ⟨2023, 1, 1⟩, ['p']⟩] : List FoundFile).length ∧
    (dedupStep ⟨[⟨['A'], ⟨2023, 1, 1⟩, ['p']⟩], []⟩
        ⟨['A'], ⟨2023, 2, 15⟩, ['q']⟩).remove =
      insertPath
        (if Date.lt (⟨2023, 1, 1⟩ : Date) (⟨2023, 2, 15⟩ : Date)
          then ['p'] else ['q']) []) ∧
    ((dedupStep ⟨[], []⟩ ⟨['A'], ⟨2023, 1, 1⟩, ['p']⟩).keep.length =
      ([] : List FoundFile).length + 1 ∧
    (dedupStep ⟨[], []⟩ ⟨['A'], ⟨2023, 1, 1⟩, ['p']⟩).remove = []) :=
  ⟨(dedup_step_frame ⟨[⟨['A'], ⟨2023, 1, 1⟩, ['p']⟩], []⟩
      ⟨['A'], ⟨2023, 2, 15⟩, ['q']⟩).1 ⟨['A'], ⟨2023, 1, 1⟩, ['p']⟩ (by decide),
    (dedup_step_frame ⟨[], []⟩ ⟨['A'], ⟨2023, 1, 1⟩, ['p']⟩).2 rfl⟩

/-! ### C8: the deletion phase iterates the sorted remove set, failing fast -/

theorem dedup_remove_sorted (s : State) (f : FoundFile)
    (h : s.remove.Pairwise (fun a b => pathLt a b = true)) :
    (dedupStep s f).remove.Pairwise (fun a b => pathLt a b = true) := by
  rcases dedup_cases s f with ⟨hn, heq⟩ |
    ⟨old, l1, l2, hfind, hdec, hkey, hl1, hbr⟩
  · rw [heq]
    exact h
  · rcases hbr with ⟨hdd, heq⟩ | ⟨hdd, heq⟩ <;> rw [heq] <;>
      exact sorted_insertPath h

theorem scan_remove_sorted : ∀ (files : List Str) (s0 s : State),
    s0.remove.Pairwise (fun a b => pathLt a b = true) →
    scanFiles s0 files = .ok s →
    s.remove.Pairwise (fun a b => pathLt a b = true) := by
  intro files
  induction files with
  | nil =>
    intro s0 s h hok
    simp only [scanFiles] at hok
    obtain rfl : s0 = s := Except.ok.inj hok
    exact h
  | cons p ps ih =>
    intro s0 s h hok
    cases hp : parseFile p with
    | panicked => simp [scanFiles, hp] at hok
    | skipped =>
      simp only [scanFiles, hp] at hok
      exact ih s0 s h hok
    | fatal => simp [scanFiles, hp] at hok
    | ok key d =>
      simp only [scanFiles, hp] at hok
      exact ih _ s (dedup_remove_sorted s0 _ h) hok

theorem runDeletions_failfast (del : Str → Bool) :
    ∀ (l1 : List Str) (p : Str) (l2 : List Str),
    (∀ q ∈ l1, del q = true) → del p = false →
    runDeletions del (l1 ++ p :: l2) = (l1, false) := by
  intro l1
  induction l1 with
  | nil =>
    intro p l2 _ hp
    simp [runDeletions, hp]
  | cons q qs ih =>
    intro p l2 hq hp
    have hqt : del q = true := hq q (by simp)
    simp only [List.cons_append, runDeletions, hqt, if_true, List.append_eq]
    rw [ih p l2 (fun r hr => hq r (by simp [hr])) hp]

/-- C8: after a successful walk the driver runs the deletion phase over the
remove set, whose iteration order is sorted by path; if deleting one path
fails, the loop stops there: exactly the (sorted-earlier) prefix was
deleted and nothing after the failing path is touched. -/
theorem deletion_phase_sorted_failfast (files : List Str) (s : State)
    (del : Str → Bool) (hok : scanFiles ⟨[], []⟩ files = .ok s) :
    runMain del files = .ok (s, runDeletions del s.remove) ∧
    s.remove.Pairwise (fun a b => pathLt a b = true) ∧
    ∀ (l1 : List Str) (p : Str) (l2 : List Str), s.remove = l1 ++ p :: l2 →
      (∀ q ∈ l1, del q = true) → del p = false →
      runDeletions del s.remove = (l1, false) := by
  refine ⟨?_, scan_remove_sorted files ⟨[], []⟩ s (by simp) hok, ?_⟩
  · simp [runMain, hok]
  · intro l1 p l2 hdec hq hp
    rw [hdec]
    exact runDeletions_failfast del l1 p l2 hq hp

/-- Witness for C8 on a concrete two-file run in which every deletion fails:
the remove set is the sorted singleton of the older file's path and the
deletion loop stops at once with nothing deleted. -/
theorem deletion_phase_witness :
    runMain (fun _ => false)
        ["A_20230101_1_T".toList, "A_20230215_1_T".toList] =
      Except.ok
        (⟨[⟨['A'], ⟨2023, 2, 15⟩, "A_20230215_1_T".toList⟩],
            ["A_20230101_1_T".toList]⟩,
          runDeletions (fun _ => false) ["A_20230101_1_T".toList]) ∧
    (["A_20230101_1_T".toList] : List Str).Pairwise
      (fun a b => pathLt a b = true) ∧
    runDeletions (fun _ => false)
        (State.remove
          ⟨[⟨['A'], ⟨2023, 2, 15⟩, "A_20230215_1_T".toList⟩],
            ["A_20230101_1_T".toList]⟩) = ([], false) := by
  have h := deletion_phase_sorted_failfast
    ["A_20230101_1_T".toList, "A_20230215_1_T".toList]
    ⟨[⟨['A'], ⟨2023, 2, 15⟩, "A_20230215_1_T".toList⟩],
      ["A_20230101_1_T".toList]⟩ (fun _ => false) rfl
  exact ⟨h.1, h.2.1, h.2.2 [] "A_20230101_1_T".toList [] rfl (by simp) rfl⟩

/-! ### C6: characterisation of the group key and the date token -/

theorem splitChar_cons_sep {sep c : Char} (cs : Str) (h : c = sep) :
    splitChar sep (c :: cs) = [] :: splitChar sep cs := by
  simp [splitChar, h]

theorem splitChar_cons_ne {sep c : Char} (cs t : Str) (ts : List Str)
    (h : ¬c = sep) (h2 : splitChar sep cs = t :: ts) :
    splitChar sep (c :: cs) = (c :: t) :: ts := by
  simp [splitChar, h, h2]

theorem splitChar_length_cons (sep c : Char) (cs : Str) :
    (splitChar sep (c :: cs)).length =
      if c = sep then (splitChar sep cs).length + 1
      else (splitChar sep cs).length := by
  by_cases hc : c = sep
  · rw [splitChar_cons_sep cs hc, if_pos hc]
    simp
  · cases h2 : splitChar sep cs with
    | nil => exact absurd h2 (splitChar_ne_nil sep cs)
    | cons t ts =>
      rw [splitChar_cons_ne cs t ts hc h2, if_neg hc]
      simp [h2]

theorem splitChar_singleton (sep : Char) : ∀ {cs t : Str},
    splitChar sep cs = [t] → cs = t := by
  intro cs
  induction cs with
  | nil =>
    intro t h
    have h' : ([[]] : List Str) = [t] := h
    injection h' with h1 _
  | cons c cs ih =>
    intro t h
    by_cases hc : c = sep
    · rw [splitChar_cons_sep cs hc] at h
      injection h with _ h2
      exact absurd h2 (splitChar_ne_nil sep cs)
    · cases h2 : splitChar sep cs with
      | nil => exact absurd h2 (splitChar_ne_nil sep cs)
      | cons t' ts =>
        rw [splitChar_cons_ne cs t' ts hc h2] at h
        injection h with h1 h3
        subst h3
        have hcs : cs = t' := ih h2
        rw [hcs]
        exact h1

/-- Splitting the full path on underscores yields at least as many fields as
splitting its final slash-segment does. -/
theorem seg_fields_le : ∀ (p fn : Str), lastSegment p = some fn →
    (splitChar '_' fn).length ≤ (splitChar '_' p).length := by
  intro p
  induction p with
  | nil =>
    intro fn h
    simp only [lastSegment, splitChar, List.getLast?] at h
    obtain rfl : ([] : Str) = fn := by
      injection h
    exact le_refl _
  | cons c cs ih =>
    intro fn h
    by_cases hc : c = '/'
    · rw [lastSegment, splitChar_cons_sep cs hc] at h
      cases h2 : splitChar '/' cs with
      | nil => exact absurd h2 (splitChar_ne_nil '/' cs)
      | cons t ts =>
        rw [h2, List.getLast?_cons_cons] at h
        have hfn : lastSegment cs = some fn := by
          rw [lastSegment, h2]
          exact h
        have hle := ih fn hfn
        rw [splitChar_length_cons]
        have hcu : ¬c = '_' := by rw [hc]; decide
        rw [if_neg hcu]
        exact hle
    · cases h2 : splitChar '/' cs with
      | nil => exact absurd h2 (splitChar_ne_nil '/' cs)
      | cons t ts =>
        rw [lastSegment, splitChar_cons_ne cs t ts hc h2] at h
        cases ts with
        | nil =>
          simp only [List.getLast?_singleton, Option.some.injEq] at h
          have hcs : cs = t := splitChar_singleton '/' h2
          rw [← h, splitChar_length_cons, hcs]
          split_ifs with hcu
          · rw [splitChar_length_cons, if_pos hcu]
          · rw [splitChar_length_cons, if_neg hcu]
        | cons t2 ts2 =>
          rw [List.getLast?_cons_cons] at h
          have hfn : lastSegment cs = some fn := by
            rw [lastSegment, h2, List.getLast?_cons_cons]
            exact h
          have hle := ih fn hfn
          rw [splitChar_length_cons]
          split_ifs with hcu
          · omega
          · exact hle

theorem getLast?_dropLast_dropLast {α : Type} (l : List α) (d : α)
    (h : 3 ≤ l.length) :
    l.dropLast.dropLast.getLast? = some (l.getD (l.length - 3) d) := by
  have h1 : l.dropLast.dropLast = l.take (l.length - 2) := by
    rw [List.dropLast_eq_take, List.dropLast_eq_take, List.length_take,
      List.take_take]
    congr 1
    omega
  rw [h1, List.getLast?_eq_getElem?, List.length_take, List.getElem?_take]
  have h2 : min (l.length - 2) l.length - 1 = l.length - 3 := by omega
  rw [h2, if_pos (by omega)]
  rw [List.getD_eq_getElem?_getD]
  have h3 : l.length - 3 < l.length := by omega
  rw [List.getElem?_eq_getElem h3]
  rfl

/-- The date token the code extracts is exactly the third-from-last
underscore field of the full path string. -/
theorem dateToken_eq (p : Str) (h : 3 ≤ (splitChar '_' p).length) :
    dateToken p =
      some ((splitChar '_' p).getD ((splitChar '_' p).length - 3) []) :=
  getLast?_dropLast_dropLast _ [] h

/-- C6: for a non-directory path whose final segment has at least three
underscore-delimited fields, the parser derives the group key by re-joining
all but the last three underscore fields of the final segment, and the date
by applying the basic-calendar-date parser to the third-from-last
underscore field of the full path string (which therefore exists). -/
theorem parser_key_and_date (p fn : Str)
    (hfn : lastSegment p = some fn)
    (h3 : 3 ≤ (splitChar '_' fn).length) :
    3 ≤ (splitChar '_' p).length ∧
    parseFile p =
      (match parseBasicDate
          ((splitChar '_' p).getD ((splitChar '_' p).length - 3) []) with
      | none => ParseResult.fatal
      | some d =>
        ParseResult.ok
          (joinChar '_'
            ((splitChar '_' fn).take ((splitChar '_' fn).length - 3))) d) := by
  have hp3 : 3 ≤ (splitChar '_' p).length :=
    le_trans h3 (seg_fields_le p fn hfn)
  refine ⟨hp3, ?_⟩
  simp only [parseFile, hfn]
  rw [if_neg (by omega : ¬(splitChar '_' fn).length < 3)]
  rw [dateToken_eq p hp3]
  rw [List.splitAt_eq]

/-- Witness for C6 at the concrete path `A_20230101_1_T`. -/
theorem parser_key_and_date_witness :
    3 ≤ (splitChar '_' "A_20230101_1_T".toList).length ∧
    parseFile "A_20230101_1_T".toList =
      (match parseBasicDate
          ((splitChar '_' "A_20230101_1_T".toList).getD
            ((splitChar '_' "A_20230101_1_T".toList).length - 3) []) with
      | none => ParseResult.fatal
      | some d =>
        ParseResult.ok
          (joinChar '_'
            ((splitChar '_' "A_20230101_1_T".toList).take
              ((splitChar '_' "A_20230101_1_T".toList).length - 3))) d) :=
  parser_key_and_date "A_20230101_1_T".toList "A_20230101_1_T".toList
    (by decide) (by decide)

/-! ### C3: keep and remove partition the successfully parsed visited files -/

theorem goodInv_step (visited : List Str) (s : State) (q key : Str) (d : Date)
    (hg : GoodInv visited s) (hq : parseFile q = .ok key d)
    (hfresh : q ∉ visited) :
    GoodInv (visited ++ [q]) (dedupStep s ⟨key, d, q⟩) := by
  obtain ⟨hiff, hnd, hdisj⟩ := hg
  have hqok : parsedOk q = true := by simp [parsedOk, hq]
  have hqnot : ¬((∃ e ∈ s.keep, e.full_path = q) ∨ q ∈ s.remove) := by
    intro h
    exact hfresh ((hiff q).mp h).1
  have hqk : ¬∃ e ∈ s.keep, e.full_path = q := fun h => hqnot (Or.inl h)
  have hqr : q ∉ s.remove := fun h => hqnot (Or.inr h)
  rcases dedup_cases s ⟨key, d, q⟩ with ⟨hn, heq⟩ |
    ⟨old, l1, l2, hfind, hdec, hkey, hl1, hbr⟩
  · rw [heq]
    refine ⟨?_, ?_, ?_⟩
    · intro p
      constructor
      · rintro (⟨e, he, hep⟩ | hp)
        · rcases List.mem_cons.mp he with rfl | he2
          · refine ⟨?_, ?_⟩
            · rw [← hep]
              simp
            · rw [← hep]
              exact hqok
          · have := (hiff p).mp (Or.inl ⟨e, he2, hep⟩)
            exact ⟨List.mem_append_left _ this.1, this.2⟩
        · have := (hiff p).mp (Or.inr hp)
          exact ⟨List.mem_append_left _ this.1, this.2⟩
      · rintro ⟨hv, hok2⟩
        rcases List.mem_append.mp hv with hv | hv
        · rcases (hiff p).mpr ⟨hv, hok2⟩ with ⟨e, he, hep⟩ | hp
          · exact Or.inl ⟨e, List.mem_cons_of_mem _ he, hep⟩
          · exact Or.inr hp
        · have hpq : p = q := by simpa using hv
          subst hpq
          exact Or.inl ⟨⟨key, d, p⟩, List.mem_cons_self _ _, rfl⟩
    · simp only [List.map_cons]
      refine List.nodup_cons.mpr ⟨?_, hnd⟩
      intro hmem
      rcases List.mem_map.mp hmem with ⟨e, he, hep⟩
      exact hqk ⟨e, he, hep⟩
    · intro p hpk hpr
      rcases hpk with ⟨e, he, hep⟩
      rcases List.mem_cons.mp he with rfl | he2
      · have hpq : q = p := hep
        exact hqr (by rw [hpq]; exact hpr)
      · exact hdisj p ⟨e, he2, hep⟩ hpr
  · have holdmem : old ∈ s.keep := by
      rw [hdec]
      simp
    have holdvp := (hiff old.full_path).mp (Or.inl ⟨old, holdmem, rfl⟩)
    have hqneold : q ≠ old.full_path := fun h => hfresh (h ▸ holdvp.1)
    have hnd' : ((l1 ++ old :: l2).map (fun e => e.full_path)).Nodup := by
      rw [← hdec]
      exact hnd
    have hnd2 : (l1.map (fun e => e.full_path) ++
        old.full_path :: l2.map (fun e => e.full_path)).Nodup := by
      simpa using hnd'
    have holdnotl1 : old.full_path ∉ l1.map (fun e => e.full_path) := by
      intro hmem
      exact (List.disjoint_of_nodup_append hnd2) hmem (by simp)
    have holdnotl2 : old.full_path ∉ l2.map (fun e => e.full_path) :=
      (List.nodup_cons.mp (hnd2.of_append_right)).1
    have hnd3 : ((l1 ++ l2).map (fun e => e.full_path)).Nodup :=
      List.Nodup.sublist
        (List.Sublist.map _
          (List.Sublist.append_left (List.sublist_cons_self old l2) l1))
        hnd'
    have hmemkeep : ∀ e, e ∈ l1 ++ l2 → e ∈ s.keep := by
      intro e he
      rw [hdec]
      rcases List.mem_append.mp he with h | h
      · exact List.mem_append_left _ h
      · exact List.mem_append_right _ (List.mem_cons_of_mem _ h)
    rcases hbr with ⟨hdd, heq⟩ | ⟨hdd, heq⟩
    · rw [heq]
      refine ⟨?_, ?_, ?_⟩
      · intro p
        constructor
        · rintro (⟨e, he, hep⟩ | hp)
          · rcases List.mem_cons.mp he with rfl | he2
            · exact ⟨by rw [← hep]; simp, by rw [← hep]; exact hqok⟩
            · have := (hiff p).mp (Or.inl ⟨e, hmemkeep e he2, hep⟩)
              exact ⟨List.mem_append_left _ this.1, this.2⟩
          · rcases mem_insertPath.mp hp with rfl | hp2
            · exact ⟨List.mem_append_left _ holdvp.1, holdvp.2⟩
            · have := (hiff p).mp (Or.inr hp2)
              exact ⟨List.mem_append_left _ this.1, this.2⟩
        · rintro ⟨hv, hok2⟩
          rcases List.mem_append.mp hv with hv | hv
          · rcases (hiff p).mpr ⟨hv, hok2⟩ with ⟨e, he, hep⟩ | hp
            · rw [hdec] at he
              rcases List.mem_append.mp he with h | h
              · exact Or.inl ⟨e, List.mem_cons_of_mem _ (List.mem_append_left _ h),
                  hep⟩
              · rcases List.mem_cons.mp h with rfl | h2
                · exact Or.inr (mem_insertPath.mpr (Or.inl hep.symm))
                · exact Or.inl
                    ⟨e, List.mem_cons_of_mem _ (List.mem_append_right _ h2), hep⟩
            · exact Or.inr (mem_insertPath.mpr (Or.inr hp))
          · have hpq : p = q := by simpa using hv
            subst hpq
            exact Or.inl ⟨⟨key, d, p⟩, List.mem_cons_self _ _, rfl⟩
      · simp only [List.map_cons]
        refine List.nodup_cons.mpr ⟨?_, hnd3⟩
        intro hmem
        rcases List.mem_map.mp hmem with ⟨e, he, hep⟩
        exact hqk ⟨e, hmemkeep e he, hep⟩
      · intro p hpk hpr
        rcases hpk with ⟨e, he, hep⟩
        rcases List.mem_cons.mp he with rfl | he2
        · have hpq : q = p := hep
          rcases mem_insertPath.mp hpr with h | h
          · exact hqneold (hpq.trans h)
          · exact hqr (by rw [hpq]; exact h)
        · rcases mem_insertPath.mp hpr with rfl | h
          · rcases List.mem_append.mp he2 with h | h
            · exact holdnotl1 (List.mem_map.mpr ⟨e, h, hep⟩)
            · exact holdnotl2 (List.mem_map.mpr ⟨e, h, hep⟩)
          · exact hdisj p ⟨e, hmemkeep e he2, hep⟩ h
    · rw [heq]
      have hperm : (l1 ++ old :: l2).Perm (old :: (l1 ++ l2)) := List.perm_middle
      refine ⟨?_, ?_, ?_⟩
      · intro p
        constructor
        · rintro (⟨e, he, hep⟩ | hp)
          · have hek : e ∈ s.keep := by
              rw [hdec]
              exact hperm.mem_iff.mpr he
            have := (hiff p).mp (Or.inl ⟨e, hek, hep⟩)
            exact ⟨List.mem_append_left _ this.1, this.2⟩
          · rcases mem_insertPath.mp hp with rfl | hp2
            · exact ⟨by simp, hqok⟩
            · have := (hiff p).mp (Or.inr hp2)
              exact ⟨List.mem_append_left _ this.1, this.2⟩
        · rintro ⟨hv, hok2⟩
          rcases List.mem_append.mp hv with hv | hv
          · rcases (hiff p).mpr ⟨hv, hok2⟩ with ⟨e, he, hep⟩ | hp
            · refine Or.inl ⟨e, ?_, hep⟩
              rw [hdec] at he
              exact hperm.mem_iff.mp he
            · exact Or.inr (mem_insertPath.mpr (Or.inr hp))
          · have hpq : p = q := by simpa using hv
            subst hpq
            exact Or.inr (mem_insertPath.mpr (Or.inl rfl))
      · have := (hperm.map (fun e => e.full_path)).nodup_iff.mp (hdec ▸ hnd)
        exact this
      · intro p hpk hpr
        rcases hpk with ⟨e, he, hep⟩
        have hek : e ∈ s.keep := by
          rw [hdec]
          exact hperm.mem_iff.mpr he
        rcases mem_insertPath.mp hpr with rfl | h
        · exact hqk ⟨e, hek, hep⟩
        · exact hdisj p ⟨e, hek, hep⟩ h

theorem scan_goodInv : ∀ (files visited : List Str) (s0 s : State),
    GoodInv visited s0 → (∀ p ∈ files, p ∉ visited) → files.Nodup →
    scanFiles s0 files = .ok s → GoodInv (visited ++ files) s := by
  intro files
  induction files with
  | nil =>
    intro visited s0 s hg _ _ hok
    simp only [scanFiles] at hok
    obtain rfl : s0 = s := Except.ok.inj hok
    simpa using hg
  | cons q qs ih =>
    intro visited s0 s hg hfr hnd hok
    have hfrq : q ∉ visited := hfr q (by simp)
    have hfr2 : ∀ p ∈ qs, p ∉ visited ++ [q] := by
      intro p hp hmem
      rcases List.mem_append.mp hmem with h | h
      · exact hfr p (by simp [hp]) h
      · have : p = q := by simpa using h
        exact (List.nodup_cons.mp hnd).1 (this ▸ hp)
    cases hq : parseFile q with
    | panicked => simp [scanFiles, hq] at hok
    | fatal => simp [scanFiles, hq] at hok
    | skipped =>
      simp only [scanFiles, hq] at hok
      have hg' : GoodInv (visited ++ [q]) s0 := by
        obtain ⟨hiff, hnd0, hdisj⟩ := hg
        refine ⟨?_, hnd0, hdisj⟩
        intro p
        rw [hiff p]
        constructor
        · rintro ⟨hv, hk⟩
          exact ⟨List.mem_append_left _ hv, hk⟩
        · rintro ⟨hv, hk⟩
          rcases List.mem_append.mp hv with hv | hv
          · exact ⟨hv, hk⟩
          · have hpq : p = q := by simpa using hv
            subst hpq
            simp [parsedOk, hq] at hk
      have := ih (visited ++ [q]) s0 s hg' hfr2 (List.nodup_cons.mp hnd).2 hok
      simpa [List.append_assoc] using this
    | ok key d =>
      simp only [scanFiles, hq] at hok
      have hg' : GoodInv (visited ++ [q]) (dedupStep s0 ⟨key, d, q⟩) :=
        goodInv_step visited s0 q key d hg hq hfrq
      have := ih (visited ++ [q]) _ s hg' hfr2 (List.nodup_cons.mp hnd).2 hok
      simpa [List.append_assoc] using this

/-- C3: after a full successful walk over distinct file paths, the keep-set
paths and the remove set are disjoint, and together they are exactly the
visited files that parsed successfully. -/
theorem walk_partition (files : List Str) (s : State)
    (hnd : files.Nodup) (hok : scanFiles ⟨[], []⟩ files = .ok s) :
    (∀ p : Str, ((∃ e ∈ s.keep, e.full_path = p) ∨ p ∈ s.remove) ↔
        (p ∈ files ∧ parsedOk p = true)) ∧
    ∀ p : Str, (∃ e ∈ s.keep, e.full_path = p) → p ∉ s.remove := by
  have hg0 : GoodInv [] ⟨[], []⟩ := by
    refine ⟨?_, by simp, by simp⟩
    intro p
    simp
  have hfin := scan_goodInv files [] ⟨[], []⟩ s hg0 (by simp) hnd hok
  rw [List.nil_append] at hfin
  exact ⟨hfin.1, hfin.2.2⟩

/-- Witness for C3 on the spec's three-file example: the older `A` file's
path is in the partition (on the remove side) and satisfies the iff. -/
theorem walk_partition_witness :
    ((∃ e ∈ (State.keep
        ⟨[⟨['B'], ⟨2023, 1, 1⟩, "B_20230101_1_T".toList⟩,
            ⟨['A'], ⟨2023, 2, 15⟩, "A_20230215_1_T".toList⟩],
          ["A_20230101_1_T".toList]⟩), e.full_path = "A_20230101_1_T".toList) ∨
      "A_20230101_1_T".toList ∈ (State.remove
        ⟨[⟨['B'], ⟨2023, 1, 1⟩, "B_20230101_1_T".toList⟩,
            ⟨['A'], ⟨2023, 2, 15⟩, "A_20230215_1_T".toList⟩],
          ["A_20230101_1_T".toList]⟩)) ↔
    ("A_20230101_1_T".toList ∈
        ["A_20230101_1_T".toList, "A_20230215_1_T".toList,
          "B_20230101_1_T".toList] ∧
      parsedOk "A_20230101_1_T".toList = true) :=
  (walk_partition
    ["A_20230101_1_T".toList, "A_20230215_1_T".toList, "B_20230101_1_T".toList]
    ⟨[⟨['B'], ⟨2023, 1, 1⟩, "B_20230101_1_T".toList⟩,
        ⟨['A'], ⟨2023, 2, 15⟩, "A_20230215_1_T".toList⟩],
      ["A_20230101_1_T".toList]⟩
    (by decide) rfl).1 "A_20230101_1_T".toList
